import Mathlib

/-!
Verification development for amdivgen (Amstrad division function generator).

The C program synthesizes Z80 instruction sequences that compute
`A := floor(A * multiplier / 2^divpow)` for an 8-bit accumulator, by
decomposing the multiplier into powers of two (`generateCode`), applying a
peephole optimizer (`optimizeCode`), measuring size/speed (`measureCode`)
and searching for a fraction approximating a requested divisor
(`findApproximation`).

This file gives a shallow embedding of those functions (translated from
`src/amdivgen.c`) together with an executable simulator for the emitted
instructions, and proves the specified properties about them.
-/

/-- `MAXPOWER2` from amdivgen.c (`#define MAXPOWER2 24`). -/
def MAXPOWER2 : Nat := 24

/-- The closed instruction enumeration, from `enum asmLines` in amdivgen.c.
(The C tags `_ld_ba`, `_rra`, ... are reproduced without the leading
underscore.) -/
inductive AsmLine where
  | ld_ba | rra | srl_a | add_b | ret
  | and_fc | and_f8 | and_f0 | and_e0 | and_c0 | and_80
  | rlca | rrca | rla
  | and_01 | and_03 | and_07 | and_0f | xor_a
  deriving DecidableEq, Repr

/-- `enum paramregistersUsed` from amdivgen.c. -/
inductive ParamRegistersUsed where
  | only_use_a | destroys_b
  deriving DecidableEq, Repr

/-- The visible machine state of a generated routine: the 8-bit accumulator
`a` (kept in `[0,255]` by every instruction), the auxiliary register `b`,
and the carry flag. -/
structure CpuState where
  a : Nat
  b : Nat
  carry : Bool
  deriving DecidableEq, Repr

/-- Modelled from the spec: the semantics of the closed instruction set.
The C program itself never simulates instructions; each enumeration tag is
rendered (in `printlines`) as a fixed Z80 mnemonic, and the spec describes
the operations by their Z80 meaning (load-register-from-accumulator,
rotate-right-through-carry, shift-right-logical, add-other-register,
mask-with-constant, circular rotates, rotate-left-through-carry,
clear-accumulator).  This function is that meaning on an 8-bit
accumulator with a carry flag; `ret` ends the routine and changes nothing. -/
def stepLine (s : CpuState) : AsmLine → CpuState
  | .ld_ba => ⟨s.a, s.a, s.carry⟩
  | .rra => ⟨(if s.carry then 128 else 0) + s.a / 2, s.b, decide (s.a % 2 = 1)⟩
  | .srl_a => ⟨s.a / 2, s.b, decide (s.a % 2 = 1)⟩
  | .add_b => ⟨(s.a + s.b) % 256, s.b, decide (256 ≤ s.a + s.b)⟩
  | .ret => s
  | .and_fc => ⟨s.a &&& 0xFC, s.b, false⟩
  | .and_f8 => ⟨s.a &&& 0xF8, s.b, false⟩
  | .and_f0 => ⟨s.a &&& 0xF0, s.b, false⟩
  | .and_e0 => ⟨s.a &&& 0xE0, s.b, false⟩
  | .and_c0 => ⟨s.a &&& 0xC0, s.b, false⟩
  | .and_80 => ⟨s.a &&& 0x80, s.b, false⟩
  | .rlca => ⟨(s.a % 128) * 2 + s.a / 128, s.b, decide (128 ≤ s.a)⟩
  | .rrca => ⟨(if s.a % 2 = 1 then 128 else 0) + s.a / 2, s.b, decide (s.a % 2 = 1)⟩
  | .rla => ⟨((s.a * 2) + (if s.carry then 1 else 0)) % 256, s.b, decide (128 ≤ s.a)⟩
  | .and_01 => ⟨s.a &&& 0x01, s.b, false⟩
  | .and_03 => ⟨s.a &&& 0x03, s.b, false⟩
  | .and_07 => ⟨s.a &&& 0x07, s.b, false⟩
  | .and_0f => ⟨s.a &&& 0x0F, s.b, false⟩
  | .xor_a => ⟨0, s.b, false⟩

/-- Run an instruction sequence from a given state. -/
def runCode (l : List AsmLine) (s : CpuState) : CpuState :=
  l.foldl stepLine s

/-- Per-instruction size in bytes, from `measureCode` in amdivgen.c. -/
def lineSize : AsmLine → Nat
  | .ret => 1
  | .ld_ba => 1
  | .rra => 1
  | .add_b => 1
  | .rlca => 1
  | .rrca => 1
  | .rla => 1
  | .xor_a => 1
  | .srl_a => 2
  | .and_fc => 2
  | .and_f8 => 2
  | .and_f0 => 2
  | .and_e0 => 2
  | .and_c0 => 2
  | .and_80 => 2
  | .and_01 => 2
  | .and_03 => 2
  | .and_07 => 2
  | .and_0f => 2

/-- Per-instruction execution time in microseconds, from `measureCode`. -/
def lineSpeed : AsmLine → Nat
  | .ret => 3
  | .ld_ba => 1
  | .rra => 1
  | .add_b => 1
  | .rlca => 1
  | .rrca => 1
  | .rla => 1
  | .xor_a => 1
  | .srl_a => 2
  | .and_fc => 2
  | .and_f8 => 2
  | .and_f0 => 2
  | .and_e0 => 2
  | .and_c0 => 2
  | .and_80 => 2
  | .and_01 => 2
  | .and_03 => 2
  | .and_07 => 2
  | .and_0f => 2

/-- `measureCode` from amdivgen.c: total size and total time of a sequence,
as an exact sum of the per-instruction constants. -/
def measureCode (l : List AsmLine) : Nat × Nat :=
  ((l.map lineSize).sum, (l.map lineSpeed).sum)

/-- The power-of-two decomposition loop of `generateCode` (amdivgen.c lines
325-333), generalized over the starting exponent: `decompFrom i (k+1)`
scans exponents `k, k-1, ..., 0` and records `e` whenever `2^e ≤ i`,
subtracting the power.  `generateCode` uses `decompFrom i (MAXPOWER2+1)`. -/
def decompFrom (i : Nat) : Nat → List Nat
  | 0 => []
  | k + 1 => if 2 ^ k ≤ i then k :: decompFrom (i - 2 ^ k) k else decompFrom i k

/-- `arrrayPowersOf2` (sic) from `generateCode`: the exponents of the binary
decomposition of `i`, most significant first. -/
def arrrayPowersOf2 (i : Nat) : List Nat :=
  decompFrom i (MAXPOWER2 + 1)

/-- Sum of the powers of two named by a list of exponents. -/
def sumPow (l : List Nat) : Nat :=
  (l.map (2 ^ ·)).sum

/-- The pruning loop of `generateCode` (amdivgen.c lines 334-337):
`for (j=numpowers-1; j>0; j--) { difference = a[j-1]-a[j];
  if ((j==numpowers-1 && difference>7) || difference>8) numpowers=j; }`.
The second argument is the running `numpowers`, the third the loop
variable `j` (counting down to 0, where the loop stops). -/
def pruneLoop (a : List Nat) : Nat → Nat → Nat
  | np, 0 => np
  | np, j + 1 =>
    let difference : Int := (a.getD j 0 : Int) - (a.getD (j + 1) 0 : Int)
    pruneLoop a
      (if (j + 1 = np - 1 ∧ 7 < difference) ∨ 8 < difference then j + 1 else np) j

/-- The number of retained decomposition terms after the pruning pass,
starting (as in `generateCode`) from `numpowers = a.length` and
`j = numpowers - 1`. -/
def pruneNumpowers (a : List Nat) : Nat :=
  pruneLoop a a.length (a.length - 1)

/-- The main emission loop of `generateCode` (amdivgen.c lines 344-361):
for `j = numpowers-1` down to `1`, emit the leading shift (`srl a` for the
first processed term, `rra` afterwards), `difference - 1` further
`srl a`, and `add b`.  The argument is the loop variable `j`. -/
def emitLoop (a : List Nat) (np : Nat) : Nat → List AsmLine
  | 0 => []
  | j + 1 =>
    let difference : Int := (a.getD j 0 : Int) - (a.getD (j + 1) 0 : Int)
    (if j + 1 = np - 1 then [AsmLine.srl_a] else [AsmLine.rra])
      ++ List.replicate (difference - 1).toNat AsmLine.srl_a
      ++ [AsmLine.add_b]
      ++ emitLoop a np j

/-- The instruction sequence built by `generateCode i divpow` in amdivgen.c
(lines 320-374) BEFORE `optimizeCode` runs: decompose `i`, prune, then
either emit the degenerate `xor a` routine (when the most significant
exponent is more than 8 below `divpow`) or the shift/rotate/add sequence,
always terminated by `ret`. -/
def generateLines (i divpow : Nat) : List AsmLine :=
  let a := arrrayPowersOf2 i
  let numpowers := pruneNumpowers a
  if 8 < (divpow : Int) - (a.getD 0 0 : Int) then
    [AsmLine.xor_a, AsmLine.ret]
  else
    (if 1 < numpowers then [AsmLine.ld_ba] else [])
      ++ emitLoop a numpowers (numpowers - 1)
      ++ (if numpowers ≠ 1 then [AsmLine.rra]
          else if divpow = a.getD 0 0 then [] else [AsmLine.srl_a])
      ++ List.replicate ((divpow : Int) - (a.getD 0 0 : Int) - 1).toNat AsmLine.srl_a
      ++ [AsmLine.ret]

/-- The final value of `numpowers` in `generateCode`: the pruned count,
reset to 1 when the decomposition is discarded on the `xor a` path
(amdivgen.c lines 338-341).  It selects the register-usage flag. -/
def finalNumpowers (i divpow : Nat) : Nat :=
  let a := arrrayPowersOf2 i
  if 8 < (divpow : Int) - (a.getD 0 0 : Int) then 1 else pruneNumpowers a

/-- The register-usage flag passed to `printHeader` by `generateCode`
(amdivgen.c lines 377-382). -/
def registersUsed (i divpow : Nat) : ParamRegistersUsed :=
  if 1 < finalNumpowers i divpow then .destroys_b else .only_use_a

/-- Count of leading `srl a` instructions, mirroring the lookahead loops of
`optimizeCode`. -/
def countSrl : List AsmLine → Nat
  | .srl_a :: rest => countSrl rest + 1
  | _ => 0

/-- The body of `optimizeCode` from amdivgen.c (lines 272-317): a single
left-to-right scan replacing `rra` followed by `n` `srl a` (n = 4..7) and
bare runs of `n` `srl a` (n = 3..8) by the cheaper rotate/mask
equivalents, skipping exactly the consumed instructions
(`i += modnextline`).  The first argument is fuel bounding the number of
scan steps (each step consumes at least one instruction, so any fuel of
at least the list length gives the loop's behaviour); it makes the
recursion structural so that proofs can evaluate the optimizer. -/
def optimizeGo : Nat → List AsmLine → List AsmLine
  | _, [] => []
  | 0, l => l
  | fuel + 1, .rra :: rest =>
    match countSrl rest with
    | 4 => [AsmLine.rla, .rla, .rla, .rla, .and_0f] ++ optimizeGo fuel (rest.drop 4)
    | 5 => [AsmLine.rla, .rla, .rla, .and_07] ++ optimizeGo fuel (rest.drop 5)
    | 6 => [AsmLine.rla, .rla, .and_03] ++ optimizeGo fuel (rest.drop 6)
    | 7 => [AsmLine.rla, .and_01] ++ optimizeGo fuel (rest.drop 7)
    | _ => AsmLine.rra :: optimizeGo fuel rest
  | fuel + 1, .srl_a :: rest =>
    match countSrl rest + 1 with
    | 3 => [AsmLine.and_f8, .rrca, .rrca, .rrca] ++ optimizeGo fuel (rest.drop 2)
    | 4 => [AsmLine.and_f0, .rrca, .rrca, .rrca, .rrca] ++ optimizeGo fuel (rest.drop 3)
    | 5 => [AsmLine.and_e0, .rlca, .rlca, .rlca] ++ optimizeGo fuel (rest.drop 4)
    | 6 => [AsmLine.and_c0, .rlca, .rlca] ++ optimizeGo fuel (rest.drop 5)
    | 7 => [AsmLine.and_80, .rlca] ++ optimizeGo fuel (rest.drop 6)
    | 8 => [AsmLine.xor_a] ++ optimizeGo fuel (rest.drop 7)
    | _ => AsmLine.srl_a :: optimizeGo fuel rest
  | fuel + 1, line :: rest => line :: optimizeGo fuel rest

/-- `optimizeCode` from amdivgen.c: the scan with enough fuel for the
whole sequence. -/
def optimizeCode (l : List AsmLine) : List AsmLine :=
  optimizeGo l.length l

/-- The routine printed by `generateCode i divpow`: the built sequence
after `optimizeCode`. -/
def generateCode (i divpow : Nat) : List AsmLine :=
  optimizeCode (generateLines i divpow)

/-- The exhaustive 256-input validation of one approximation candidate in
`findApproximation` (amdivgen.c lines 397-402), for an integer divisor:
`floor(j/d) == floor((floor(2^k/d)+1) * j / 2^k)` for every `j` in
`[0,255]`.  (The C code computes `floor(j/d)` as
`(int)((j*1000)/(i*1000))` in `float`; on the integer divisors considered
here that equals the exact quotient.) -/
def testOK (d k : Nat) : Bool :=
  (List.range 256).all fun j => j / d == ((2 ^ k / d + 1) * j) / 2 ^ k

/-- The three possible outcomes of the approximation search: the divisor is
itself the candidate power of two, a validated multiplier/denominator pair
was found, or the loop ran past `MAXPOWER2` without success. -/
inductive SearchOutcome where
  | pow2 (k : Nat)
  | approx (k value : Nat)
  | exhausted
  deriving DecidableEq, Repr

/-- The candidate loop of `findApproximation` (amdivgen.c lines 393-411)
from candidate exponent `k` upward, with `fuel` remaining candidates
(`fuel = MAXPOWER2 + 1 - k` at every reachable call, so fuel 0 means the
loop ran past `MAXPOWER2`): compute `value = floor(2^k/d)+1`, test all
256 inputs, emit the power-of-two routine if `d == 2^k`, else the
approximation if the test passed, else try `k+1`.  (In the C code the power-of-two branch is checked first
within an iteration; when it fires the validation of the same iteration
never also fires for any reachable divisor.) -/
def findApproxGo (d : Nat) : Nat → Nat → SearchOutcome
  | _, 0 => .exhausted
  | k, fuel + 1 =>
    if d = 2 ^ k then .pow2 k
    else if testOK d k then .approx k (2 ^ k / d + 1)
    else findApproxGo d (k + 1) fuel

/-- `findApproximation` from amdivgen.c for an integer divisor `d`:
candidate exponents 0 through MAXPOWER2 (fuel `MAXPOWER2 + 1` starting at
exponent 0). -/
def findApproximation (d : Nat) : SearchOutcome :=
  findApproxGo d 0 (MAXPOWER2 + 1)

/-- The routine generated for divisor `d` via the approximation search:
`generateCode(div, 1, 0, k)` on the power-of-two branch,
`generateCode(i, value, 0, k)` on the approximation branch, and no routine
at all on exhaustion. -/
def routineFor (d : Nat) : Option (List AsmLine) :=
  match findApproximation d with
  | .pow2 k => some (generateCode 1 k)
  | .approx k value => some (generateCode value k)
  | .exhausted => none

/-- The value accumulated by the emission loop, expressed over a suffix
`[e_t, ..., e_{m-1}]` of the (descending) exponent list: the input for the
last term, and `previous / 2^(gap) + input` for each earlier term. -/
def suffVal (inp : Nat) : List Nat → Nat
  | [] => 0
  | [_] => inp
  | e :: e' :: rest => suffVal inp (e' :: rest) / 2 ^ (e - e') + inp

/-- Modelled from the spec (amended form of the pruning rule): walking
from the least significant retained term backward, the remaining smaller
terms are dropped when a gap exceeds 8, or exceeds 7 when the gap is
adjacent to the least significant currently-retained term (the first gap
examined, and each gap examined immediately after a drop).  Returns the
index of the last (deepest) drop, scanning gap `j` with flag `t` saying
whether that gap is currently trailing. -/
def pruneFires (a : List Nat) : Nat → Bool → Option Nat
  | 0, _ => none
  | j + 1, t =>
    let difference : Int := (a.getD j 0 : Int) - (a.getD (j + 1) 0 : Int)
    let fired : Bool := decide (8 < difference) || (t && decide (7 < difference))
    match pruneFires a j fired with
    | some r => some r
    | none => if fired then some (j + 1) else none

/-- The amended pruning rule as a count of retained terms. -/
def pruneSpecCount (a : List Nat) : Nat :=
  (pruneFires a (a.length - 1) true).getD a.length

/-- A run accepted by the optimizer's Rule A: one rotate-right-through-carry
followed by `n` logical right shifts. -/
def ruleARun (n : Nat) : List AsmLine :=
  AsmLine.rra :: List.replicate n AsmLine.srl_a

/-- A run accepted by the optimizer's Rule B: `n` consecutive logical right
shifts with no preceding rotate. -/
def ruleBRun (n : Nat) : List AsmLine :=
  List.replicate n AsmLine.srl_a

/-! ## Basic facts about running code -/

theorem runCode_nil (s : CpuState) : runCode [] s = s := rfl

theorem runCode_cons (x : AsmLine) (l : List AsmLine) (s : CpuState) :
    runCode (x :: l) s = runCode l (stepLine s x) := rfl

theorem runCode_append (l₁ l₂ : List AsmLine) (s : CpuState) :
    runCode (l₁ ++ l₂) s = runCode l₂ (runCode l₁ s) := by
  simp [runCode]

theorem runCode_srl_run (n : Nat) (s : CpuState) :
    (runCode (List.replicate n AsmLine.srl_a) s).a = s.a / 2 ^ n ∧
      (runCode (List.replicate n AsmLine.srl_a) s).b = s.b := by
  induction n generalizing s with
  | zero => simp [runCode]
  | succ n ih =>
    rw [List.replicate_succ, runCode_cons]
    obtain ⟨h1, h2⟩ := ih (stepLine s AsmLine.srl_a)
    refine ⟨?_, by simpa [stepLine] using h2⟩
    rw [h1]
    simp only [stepLine]
    rw [Nat.div_div_eq_div_mul, pow_succ, Nat.mul_comm 2 (2 ^ n)]

theorem stepLine_rra_nine {V b : Nat} (hV : V < 512) :
    stepLine ⟨V % 256, b, decide (256 ≤ V)⟩ AsmLine.rra = ⟨V / 2, b, decide (V % 2 = 1)⟩ := by
  simp only [stepLine, CpuState.mk.injEq]
  refine ⟨?_, ?_⟩
  · by_cases h : 256 ≤ V
    · rw [if_pos (by simpa using h)]
      omega
    · rw [if_neg (by simpa using h)]
      omega
  · refine ⟨trivial, ?_⟩
    rw [decide_eq_decide]
    omega

/-! ## Facts about the decomposition -/

theorem decompFrom_bound (i k : Nat) : ∀ e ∈ decompFrom i k, e < k := by
  induction k generalizing i with
  | zero => simp [decompFrom]
  | succ k ih =>
    intro e he
    rw [decompFrom] at he
    split at he
    · rcases List.mem_cons.mp he with rfl | h
      · omega
      · exact Nat.lt_succ_of_lt (ih _ _ h)
    · exact Nat.lt_succ_of_lt (ih _ _ he)

theorem decompFrom_pairwise (i k : Nat) : (decompFrom i k).Pairwise (· > ·) := by
  induction k generalizing i with
  | zero => simp [decompFrom]
  | succ k ih =>
    rw [decompFrom]
    split
    · exact List.Pairwise.cons (fun e he => decompFrom_bound _ _ e he) (ih _)
    · exact ih _

theorem decompFrom_sum (i k : Nat) (h : i < 2 ^ k) : sumPow (decompFrom i k) = i := by
  induction k generalizing i with
  | zero => simpa [decompFrom, sumPow] using by omega
  | succ k ih =>
    rw [decompFrom]
    split
    · next hle =>
      have h2 : i - 2 ^ k < 2 ^ k := by
        have := pow_succ 2 k
        omega
      have h3 := ih _ h2
      simp only [sumPow, List.map_cons, List.sum_cons] at h3 ⊢
      omega
    · next hlt => exact ih _ (by omega)

theorem decompFrom_ne_nil (i k : Nat) (h1 : 1 ≤ i) (h2 : i < 2 ^ k) :
    decompFrom i k ≠ [] := by
  induction k generalizing i with
  | zero => simp at h2; omega
  | succ k ih =>
    rw [decompFrom]
    split
    · simp
    · next hlt => exact ih _ h1 (by omega)

theorem sumPow_lt_of_forall_lt (l : List Nat) (k : Nat) (hb : ∀ e ∈ l, e < k)
    (hp : l.Pairwise (· > ·)) : sumPow l < 2 ^ k := by
  induction l generalizing k with
  | nil =>
    simp only [sumPow, List.map_nil, List.sum_nil]
    positivity
  | cons e t ih =>
    have he : e < k := hb e (List.mem_cons_self _ _)
    have ht : sumPow t < 2 ^ e :=
      ih e (fun x hx => List.rel_of_pairwise_cons hp hx) (List.Pairwise.of_cons hp)
    have : 2 ^ (e + 1) ≤ 2 ^ k := Nat.pow_le_pow_right (by omega) (by omega)
    simp only [sumPow, List.map_cons, List.sum_cons] at *
    have := pow_succ 2 e
    omega

theorem sumPow_head_le (e : Nat) (t : List Nat) : 2 ^ e ≤ sumPow (e :: t) := by
  simp [sumPow]

/-! ## Facts about `suffVal` -/

theorem suffVal_le (inp : Nat) (hinp : inp ≤ 255) (l : List Nat)
    (hp : l.Pairwise (· > ·)) : suffVal inp l ≤ 510 := by
  induction l with
  | nil => simp [suffVal]
  | cons e t ih =>
    match t with
    | [] => simpa [suffVal] using by omega
    | e' :: t' =>
      have h1 : suffVal inp (e' :: t') ≤ 510 := ih (List.Pairwise.of_cons hp)
      have hgap : e' < e := List.rel_of_pairwise_cons hp (List.mem_cons_self _ _)
      have h2 : (2 : Nat) ≤ 2 ^ (e - e') := by
        calc (2 : Nat) = 2 ^ 1 := rfl
        _ ≤ 2 ^ (e - e') := Nat.pow_le_pow_right (by omega) (by omega)
      have h3 : suffVal inp (e' :: t') / 2 ^ (e - e') ≤ suffVal inp (e' :: t') / 2 :=
        Nat.div_le_div_left h2 (by omega)
      rw [suffVal]
      omega

theorem suffVal_eq (inp : Nat) (e : Nat) (t : List Nat)
    (hp : (e :: t).Pairwise (· > ·)) :
    suffVal inp (e :: t) = inp * sumPow (e :: t) / 2 ^ e := by
  induction t generalizing e with
  | nil =>
    rw [suffVal]
    simp only [sumPow, List.map_cons, List.map_nil, List.sum_cons, List.sum_nil, add_zero]
    rw [Nat.mul_div_cancel _ (pow_pos (by omega) e)]
  | cons e' t' ih =>
    have hgap : e' < e := List.rel_of_pairwise_cons hp (List.mem_cons_self _ _)
    rw [suffVal, ih e' (List.Pairwise.of_cons hp)]
    rw [Nat.div_div_eq_div_mul, ← pow_add]
    rw [show e' + (e - e') = e from by omega]
    have hpos : (0 : Nat) < 2 ^ e := pow_pos (by omega) e
    rw [show inp * sumPow (e :: e' :: t') = inp * sumPow (e' :: t') + inp * 2 ^ e from by
      simp only [sumPow, List.map_cons, List.sum_cons]; ring]
    rw [Nat.add_mul_div_right _ _ hpos]

theorem getD_lt_getD {a : List Nat} (ha : a.Pairwise (· > ·)) {i j : Nat}
    (hij : i < j) (hj : j < a.length) : a.getD j 0 < a.getD i 0 := by
  rw [List.getD_eq_getElem _ _ hj, List.getD_eq_getElem _ _ (by omega : i < a.length)]
  have := List.pairwise_iff_get.mp ha ⟨i, by omega⟩ ⟨j, hj⟩ hij
  simpa [List.get_eq_getElem] using this

theorem drop_eq_getD_cons {a : List Nat} {j : Nat} (h : j < a.length) :
    a.drop j = a.getD j 0 :: a.drop (j + 1) := by
  rw [List.getD_eq_getElem _ _ h]
  exact List.drop_eq_getElem_cons h

/-- Running the emission loop from loop position `j` carries the partial
value `suffVal inp (a.drop j)` (held as an 8-bit accumulator plus carry)
down to the partial value for the whole exponent list. -/
theorem emitLoop_sim (a : List Nat) (ha : a.Pairwise (· > ·)) (inp : Nat)
    (hinp : inp ≤ 255) :
    ∀ j, j + 2 ≤ a.length →
      runCode (emitLoop a a.length j)
        ⟨suffVal inp (a.drop j) % 256, inp, decide (256 ≤ suffVal inp (a.drop j))⟩
      = ⟨suffVal inp a % 256, inp, decide (256 ≤ suffVal inp a)⟩ := by
  intro j
  induction j with
  | zero =>
    intro _
    simp [emitLoop, runCode]
  | succ j ih =>
    intro hj
    have hj1 : j + 1 < a.length := by omega
    have hj2 : j < a.length := by omega
    have hne : ¬ (j + 1 = a.length - 1) := by omega
    have hgt : a.getD (j + 1) 0 < a.getD j 0 := getD_lt_getD ha (by omega) hj1
    set d : Nat := a.getD j 0 - a.getD (j + 1) 0 with hd
    have hd1 : 1 ≤ d := by omega
    have htoNat : ((a.getD j 0 : Int) - (a.getD (j + 1) 0 : Int) - 1).toNat = d - 1 := by
      omega
    set S : Nat := suffVal inp (a.drop (j + 1)) with hS
    have hSle : S ≤ 510 :=
      suffVal_le inp hinp _ (ha.sublist (List.drop_sublist (j + 1) a))
    have hSj : suffVal inp (a.drop j) = S / 2 ^ d + inp := by
      rw [drop_eq_getD_cons hj2, drop_eq_getD_cons hj1, suffVal, ← drop_eq_getD_cons hj1]
    simp only [emitLoop, hne, if_false, htoNat]
    simp only [List.nil_append, List.cons_append, List.append_assoc]
    rw [runCode_cons, stepLine_rra_nine (by omega), runCode_append, runCode_cons]
    obtain ⟨hta, htb⟩ := runCode_srl_run (d - 1)
      ⟨S / 2, inp, decide (S % 2 = 1)⟩
    set t := runCode (List.replicate (d - 1) AsmLine.srl_a)
      ⟨S / 2, inp, decide (S % 2 = 1)⟩ with ht
    have htd : t.a = S / 2 ^ d := by
      rw [hta]
      show S / 2 / 2 ^ (d - 1) = _
      rw [Nat.div_div_eq_div_mul]
      congr 1
      rw [← pow_succ']
      congr 1
      omega
    have hrun : stepLine t AsmLine.add_b = ⟨(S / 2 ^ d + inp) % 256, inp,
        decide (256 ≤ S / 2 ^ d + inp)⟩ := by
      simp only [stepLine, htd, htb]
    rw [hrun, ← hSj]
    exact ih (by omega)

theorem pow256_mul (e : Nat) : (256 : Nat) * 2 ^ (e + 1) = 2 ^ (e + 9) := by
  rw [show (256 : Nat) = 2 ^ 8 from rfl, ← pow_add]
  congr 1
  omega

theorem div_pow_shift (x e dp : Nat) (h : e ≤ dp) :
    x * 2 ^ e / 2 ^ dp = x / 2 ^ (dp - e) := by
  have hdp : (2 : Nat) ^ dp = 2 ^ e * 2 ^ (dp - e) := by
    rw [← pow_add]
    congr 1
    omega
  rw [hdp, mul_comm x (2 ^ e), Nat.mul_div_mul_left _ _ (pow_pos (by omega) e)]

theorem runCode_ret (s : CpuState) : runCode [AsmLine.ret] s = s := rfl

/-- C1: for every valid (decomposition, divpow) pair within the supported
ranges -- multiplier `i` between 1 and the denominator `2^divpow`,
`divpow ≤ MAXPOWER2`, and the decomposition handed to the Sequence Builder
being exactly the multiplier's decomposition (i.e. unchanged by the
pruning pass) -- simulating the pre-optimization instruction sequence
emitted by `generateCode` on every 8-bit input `j` yields exactly
`floor(j * i / 2^divpow)`. -/
theorem amdivgen_C1 (i divpow : Nat) (h1 : 1 ≤ i) (h2 : i ≤ 2 ^ divpow)
    (hmax : divpow ≤ MAXPOWER2)
    (hstable : pruneNumpowers (arrrayPowersOf2 i) = (arrrayPowersOf2 i).length) :
    ∀ inp ≤ 255, ∀ b c,
      (runCode (generateLines i divpow) ⟨inp, b, c⟩).a = inp * i / 2 ^ divpow := by
  intro inp hinp b c
  set a := arrrayPowersOf2 i with ha
  have hi25 : i < 2 ^ (MAXPOWER2 + 1) := by
    have hA : (2 : Nat) ^ divpow ≤ 2 ^ MAXPOWER2 := Nat.pow_le_pow_right (by omega) hmax
    have hB : (2 : Nat) ^ MAXPOWER2 < 2 ^ (MAXPOWER2 + 1) :=
      Nat.pow_lt_pow_right (by omega) (by omega)
    omega
  have hpw : a.Pairwise (· > ·) := decompFrom_pairwise _ _
  have hsum : sumPow a = i := decompFrom_sum _ _ hi25
  have hnil : a ≠ [] := decompFrom_ne_nil _ _ h1 hi25
  obtain ⟨e0, t, heq⟩ := List.exists_cons_of_ne_nil hnil
  have he0 : a.getD 0 0 = e0 := by rw [heq]; rfl
  have h2e0 : 2 ^ e0 ≤ i := by
    have := sumPow_head_le e0 t
    rw [← heq, hsum] at this
    exact this
  have hiub : i < 2 ^ (e0 + 1) := by
    have hb : ∀ x ∈ a, x < e0 + 1 := by
      intro x hx
      rw [heq] at hx
      rcases List.mem_cons.mp hx with rfl | hx'
      · omega
      · have hpw' := heq ▸ hpw
        have := List.rel_of_pairwise_cons hpw' hx'
        omega
    have := sumPow_lt_of_forall_lt a (e0 + 1) hb hpw
    omega
  have he0divpow : e0 ≤ divpow := by
    by_contra hcon
    have : (2 : Nat) ^ divpow < 2 ^ e0 := Nat.pow_lt_pow_right (by omega) (by omega)
    omega
  by_cases hbig : 8 < (divpow : Int) - (a.getD 0 0 : Int)
  · -- degenerate `xor a` path: the result is 0, and so is the exact quotient
    have hgen : generateLines i divpow = [AsmLine.xor_a, AsmLine.ret] := by
      simp only [generateLines]
      rw [← ha, if_pos hbig]
    rw [hgen]
    have hlhs : (runCode [AsmLine.xor_a, AsmLine.ret] ⟨inp, b, c⟩).a = 0 := by
      simp [runCode, stepLine]
    rw [hlhs]
    have hdp : e0 + 9 ≤ divpow := by
      rw [he0] at hbig
      omega
    have hlt : inp * i < 2 ^ divpow := by
      have hb1 : inp * i < 256 * 2 ^ (e0 + 1) :=
        mul_lt_mul' (by omega : inp ≤ 256) hiub (Nat.zero_le _) (by omega)
      rw [pow256_mul] at hb1
      have : (2 : Nat) ^ (e0 + 9) ≤ 2 ^ divpow := Nat.pow_le_pow_right (by omega) hdp
      omega
    rw [Nat.div_eq_of_lt hlt]
  · rcases t with _ | ⟨e1, t'⟩
    · -- a single decomposition term: i = 2^e0, only shifts are emitted
      have hie : i = 2 ^ e0 := by
        rw [← hsum, heq]
        simp [sumPow]
      have hlen : a.length = 1 := by rw [heq]; rfl
      have hgen : generateLines i divpow
          = (if divpow = e0 then ([] : List AsmLine) else [AsmLine.srl_a])
            ++ (List.replicate ((divpow : Int) - (e0 : Int) - 1).toNat AsmLine.srl_a
            ++ [AsmLine.ret]) := by
        simp only [generateLines]
        rw [← ha, if_neg hbig, hstable, hlen, he0]
        simp [emitLoop]
      by_cases hdv : divpow = e0
      · have hcount : ((divpow : Int) - (e0 : Int) - 1).toNat = 0 := by omega
        rw [hgen, if_pos hdv, hcount]
        simp only [List.replicate_zero, List.nil_append]
        show (runCode [AsmLine.ret] ⟨inp, b, c⟩).a = _
        rw [runCode_ret]
        show inp = _
        rw [hie, hdv, Nat.mul_div_cancel _ (pow_pos (by omega) e0)]
      · have he0lt : e0 < divpow := by omega
        have hcount : ((divpow : Int) - (e0 : Int) - 1).toNat = divpow - e0 - 1 := by
          omega
        rw [hgen, if_neg hdv, hcount]
        rw [List.cons_append, List.nil_append, runCode_cons, runCode_append]
        obtain ⟨hta, -⟩ := runCode_srl_run (divpow - e0 - 1)
          (stepLine ⟨inp, b, c⟩ AsmLine.srl_a)
        rw [runCode_ret, hta]
        show inp / 2 / 2 ^ (divpow - e0 - 1) = _
        rw [Nat.div_div_eq_div_mul, hie, div_pow_shift _ _ _ he0divpow]
        congr 1
        rw [← pow_succ']
        congr 1
        omega
    · -- at least two decomposition terms: save B, fold, final rotate+shifts
      obtain ⟨m, hlen⟩ : ∃ m, a.length = m + 2 := by
        rw [heq]
        exact ⟨t'.length, by simp⟩
      have he0lt : e0 < divpow := by
        have hgt0 : 2 ^ e0 < i := by
          rw [← hsum, heq]
          have hp1 : 0 < 2 ^ e1 := pow_pos (by omega) e1
          simp only [sumPow, List.map_cons, List.sum_cons]
          omega
        by_contra hcon
        have : (2 : Nat) ^ divpow ≤ 2 ^ e0 := Nat.pow_le_pow_right (by omega) (by omega)
        omega
      have hcount : ((divpow : Int) - (e0 : Int) - 1).toNat = divpow - e0 - 1 := by
        omega
      have hgen : generateLines i divpow
          = [AsmLine.ld_ba] ++ (emitLoop a a.length (m + 1)
            ++ ([AsmLine.rra]
            ++ (List.replicate (divpow - e0 - 1) AsmLine.srl_a ++ [AsmLine.ret]))) := by
        simp only [generateLines]
        rw [← ha, if_neg hbig, hstable, he0, hcount]
        rw [if_pos (by omega : 1 < a.length), if_pos (by omega : a.length ≠ 1)]
        rw [show a.length - 1 = m + 1 from by omega]
        simp [List.append_assoc]
      rw [hgen]
      -- run the leading `ld b,a`
      rw [List.cons_append, List.nil_append, runCode_cons]
      rw [show stepLine ⟨inp, b, c⟩ AsmLine.ld_ba = ⟨inp, inp, c⟩ from rfl]
      -- unfold the first loop block (leader `srl a`)
      have hm1 : m + 1 < a.length := by omega
      have hm0 : m < a.length := by omega
      have hgtm : a.getD (m + 1) 0 < a.getD m 0 := getD_lt_getD hpw (by omega) hm1
      set d0 : Nat := a.getD m 0 - a.getD (m + 1) 0 with hd0
      have htoNat0 : ((a.getD m 0 : Int) - (a.getD (m + 1) 0 : Int) - 1).toNat = d0 - 1 := by
        omega
      have hblock : emitLoop a a.length (m + 1)
          = AsmLine.srl_a :: (List.replicate (d0 - 1) AsmLine.srl_a
            ++ (AsmLine.add_b :: emitLoop a a.length m)) := by
        simp only [emitLoop, htoNat0]
        rw [if_pos (by omega : m + 1 = a.length - 1)]
        simp
      rw [hblock]
      rw [List.cons_append, runCode_cons]
      rw [show stepLine ⟨inp, inp, c⟩ AsmLine.srl_a
        = ⟨inp / 2, inp, decide (inp % 2 = 1)⟩ from rfl]
      rw [List.append_assoc, runCode_append]
      obtain ⟨hta, htb⟩ := runCode_srl_run (d0 - 1) ⟨inp / 2, inp, decide (inp % 2 = 1)⟩
      set t0 := runCode (List.replicate (d0 - 1) AsmLine.srl_a)
        ⟨inp / 2, inp, decide (inp % 2 = 1)⟩ with ht0
      have htd : t0.a = inp / 2 ^ d0 := by
        rw [hta]
        show inp / 2 / 2 ^ (d0 - 1) = _
        rw [Nat.div_div_eq_div_mul]
        congr 1
        rw [← pow_succ']
        congr 1
        omega
      rw [List.cons_append, runCode_cons]
      have hadd : stepLine t0 AsmLine.add_b = ⟨(inp / 2 ^ d0 + inp) % 256, inp,
          decide (256 ≤ inp / 2 ^ d0 + inp)⟩ := by
        simp only [stepLine, htd, htb]
      rw [hadd]
      -- the state now carries `suffVal inp (a.drop m)`
      have hdropnil : a.drop (m + 2) = [] := by
        apply List.drop_eq_nil_of_le
        omega
      have hdrop : suffVal inp (a.drop m) = inp / 2 ^ d0 + inp := by
        rw [drop_eq_getD_cons hm0, drop_eq_getD_cons hm1, hdropnil, suffVal, suffVal]
      rw [← hdrop, runCode_append]
      rw [emitLoop_sim a hpw inp hinp m (by omega)]
      -- final segment: `rra`, remaining shifts, `ret`
      set S0 : Nat := suffVal inp a with hS0
      have hS0le : S0 ≤ 510 := suffVal_le inp hinp a hpw
      rw [List.cons_append, List.nil_append, runCode_cons,
        stepLine_rra_nine (by omega), runCode_append]
      obtain ⟨hfa, -⟩ := runCode_srl_run (divpow - e0 - 1)
        ⟨S0 / 2, inp, decide (S0 % 2 = 1)⟩
      rw [runCode_ret, hfa]
      show S0 / 2 / 2 ^ (divpow - e0 - 1) = _
      rw [Nat.div_div_eq_div_mul]
      rw [show (2 : Nat) * 2 ^ (divpow - e0 - 1) = 2 ^ (divpow - e0) from by
        rw [← pow_succ']
        congr 1
        omega]
      have hpw' : (e0 :: e1 :: t').Pairwise (· > ·) := heq ▸ hpw
      rw [hS0, heq, suffVal_eq inp e0 (e1 :: t') hpw', ← heq, hsum]
      rw [Nat.div_div_eq_div_mul, ← pow_add,
        show e0 + (divpow - e0) = divpow from by omega]

theorem amdivgen_C1_witness :
    (1 ≤ 9 ∧ 9 ≤ 2 ^ 4 ∧ 4 ≤ MAXPOWER2 ∧
      pruneNumpowers (arrrayPowersOf2 9) = (arrrayPowersOf2 9).length) ∧
    (runCode (generateLines 9 4) ⟨100, 0, false⟩).a = 100 * 9 / 2 ^ 4 :=
  ⟨⟨by decide, by decide, by decide, by decide⟩,
    amdivgen_C1 9 4 (by decide) (by decide) (by decide) (by decide) 100 (by decide) 0 false⟩

/-- One step of the pruning loop agrees with one step of the
trailing-gap-flag scan `pruneFires`. -/
theorem pruneLoop_eq_pruneFires (a : List Nat) :
    ∀ j np, j + 1 ≤ np →
      pruneLoop a np j = (pruneFires a j (decide (np = j + 1))).getD np := by
  intro j
  induction j with
  | zero =>
    intro np _
    rfl
  | succ j ih =>
    intro np hnp
    simp only [pruneLoop, pruneFires]
    set D : Int := (a.getD j 0 : Int) - (a.getD (j + 1) 0 : Int) with hD
    by_cases hf : (j + 1 = np - 1 ∧ 7 < D) ∨ 8 < D
    · rw [if_pos hf]
      have hfired : (decide (8 < D) || (decide (np = j + 1 + 1) && decide (7 < D)))
          = true := by
        rcases hf with ⟨hA, hB⟩ | hC
        · have hnp2 : np = j + 2 := by omega
          simp [hnp2, hB]
        · simp [hC]
      rw [hfired]
      rw [ih (j + 1) (le_refl _)]
      rw [show decide (j + 1 = j + 1) = true from by simp]
      rcases hsub : pruneFires a j true with _ | r
      · simp
      · simp
    · rw [if_neg hf]
      have hfired : (decide (8 < D) || (decide (np = j + 1 + 1) && decide (7 < D)))
          = false := by
        have h8 : ¬ (8 < D) := fun hc => hf (Or.inr hc)
        by_cases hnp2 : np = j + 2
        · have h7 : ¬ (7 < D) := fun hc => hf (Or.inl ⟨by omega, hc⟩)
          simp [h8, h7]
        · simp [h8, show ¬ (np = j + 1 + 1) from by omega]
      rw [hfired]
      rw [ih np (by omega)]
      rw [show decide (np = j + 1) = false from decide_eq_false (by omega)]
      rcases hsub : pruneFires a j false with _ | r
      · simp
      · simp

/-- C4 (amended): the pruning pass drops the remaining smaller terms when a
gap exceeds 8, or exceeds 7 when the gap is adjacent to the least
significant currently-retained term (the first gap examined, and each gap
examined immediately after a drop) -- not the gap adjacent to the most
significant exponent. -/
theorem amdivgen_C4 (a : List Nat) : pruneNumpowers a = pruneSpecCount a := by
  rcases a with _ | ⟨x, t⟩
  · rfl
  · show pruneLoop (x :: t) (t.length + 1) t.length = _
    rw [pruneLoop_eq_pruneFires _ t.length (t.length + 1) (by omega)]
    rw [show decide (t.length + 1 = t.length + 1) = true from by simp]
    rfl

/-- C4 counterexample: for 1538 = 2^10 + 2^9 + 2^1 the decomposition is
[10, 9, 1]; neither gap exceeds the threshold the claim assigns to it
(gap 10-9 = 1 is the one adjacent to the most significant exponent, and
gap 9-1 = 8 does not exceed 8), yet the code drops the trailing term
(numpowers becomes 2): the 7-threshold actually applies to the gap
adjacent to the least significant term. -/
theorem amdivgen_C4_cex :
    arrrayPowersOf2 1538 = [10, 9, 1] ∧
    pruneNumpowers (arrrayPowersOf2 1538) = 2 ∧
    ¬ ((10 : Nat) - 9 > 7) ∧ ¬ ((9 : Nat) - 1 > 8) := by
  refine ⟨by decide, ?_, by decide, by decide⟩
  decide

/-- C5: when the most significant exponent of the (pruned) decomposition is
farther than 8 below the target shift amount `divpow`, the decomposition
is discarded: the built routine is exactly a clear-accumulator instruction
followed by the return, `numpowers` is reset to 1, and the simulated
routine always produces zero. -/
theorem amdivgen_C5 (i divpow : Nat)
    (hbig : 8 < (divpow : Int) - ((arrrayPowersOf2 i).getD 0 0 : Int)) :
    generateLines i divpow = [AsmLine.xor_a, AsmLine.ret] ∧
    finalNumpowers i divpow = 1 ∧
    ∀ j b c, (runCode (generateLines i divpow) ⟨j, b, c⟩).a = 0 := by
  have hg : generateLines i divpow = [AsmLine.xor_a, AsmLine.ret] := by
    simp only [generateLines]
    rw [if_pos hbig]
  refine ⟨hg, ?_, ?_⟩
  · simp only [finalNumpowers]
    rw [if_pos hbig]
  · intro j b c
    rw [hg]
    simp [runCode, stepLine]

theorem amdivgen_C5_witness :
    generateLines 1 10 = [AsmLine.xor_a, AsmLine.ret] ∧
    finalNumpowers 1 10 = 1 ∧
    (runCode (generateLines 1 10) ⟨200, 3, true⟩).a = 0 :=
  ⟨(amdivgen_C5 1 10 (by decide)).1, (amdivgen_C5 1 10 (by decide)).2.1,
    (amdivgen_C5 1 10 (by decide)).2.2 200 3 true⟩

/-- C7: for every integer `v` below `2^(MAXPOWER2+1)`, the unpruned
decomposition is a strictly decreasing list of exponents, each at most
MAXPOWER2 = 24, whose powers of two sum to exactly `v`. -/
theorem amdivgen_C7 (v : Nat) (hv : v < 2 ^ (MAXPOWER2 + 1)) :
    (arrrayPowersOf2 v).Pairwise (· > ·) ∧
    (∀ e ∈ arrrayPowersOf2 v, e ≤ MAXPOWER2) ∧
    sumPow (arrrayPowersOf2 v) = v :=
  ⟨decompFrom_pairwise _ _,
    fun e he => by
      have := decompFrom_bound v (MAXPOWER2 + 1) e he
      omega,
    decompFrom_sum _ _ hv⟩

theorem amdivgen_C7_witness :
    1538 < 2 ^ (MAXPOWER2 + 1) ∧
    ((arrrayPowersOf2 1538).Pairwise (· > ·) ∧
      (∀ e ∈ arrrayPowersOf2 1538, e ≤ MAXPOWER2) ∧
      sumPow (arrrayPowersOf2 1538) = 1538) :=
  ⟨by decide, amdivgen_C7 1538 (by decide)⟩

/-- For a sequence without `ld b,a` and `add b`, the accumulator trajectory
does not depend on the B register. -/
theorem runCode_no_b (l : List AsmLine) :
    ∀ x b₁ b₂ c, AsmLine.ld_ba ∉ l → AsmLine.add_b ∉ l →
      (runCode l ⟨x, b₁, c⟩).a = (runCode l ⟨x, b₂, c⟩).a := by
  induction l with
  | nil =>
    intro x b₁ b₂ c _ _
    rfl
  | cons ins rest ih =>
    intro x b₁ b₂ c hld hadd
    rw [runCode_cons, runCode_cons]
    have hld' : AsmLine.ld_ba ∉ rest := fun h => hld (List.mem_cons_of_mem _ h)
    have hadd' : AsmLine.add_b ∉ rest := fun h => hadd (List.mem_cons_of_mem _ h)
    cases ins
    case ld_ba => exact absurd (List.mem_cons_self _ _) hld
    case add_b => exact absurd (List.mem_cons_self _ _) hadd
    all_goals simp only [stepLine]
    all_goals exact ih _ _ _ _ hld' hadd'

/-- Lift an exhaustive accumulator-equivalence check (B fixed to 0) to all
values of the B register, for b-free runs. -/
theorem optRun_a_eq (l : List AsmLine)
    (h1 : AsmLine.ld_ba ∉ l) (h2 : AsmLine.add_b ∉ l)
    (h3 : AsmLine.ld_ba ∉ optimizeCode l) (h4 : AsmLine.add_b ∉ optimizeCode l)
    (hkey : ∀ x < 256, ∀ c : Bool,
      (runCode (optimizeCode l) ⟨x, 0, c⟩).a = (runCode l ⟨x, 0, c⟩).a) :
    ∀ x < 256, ∀ c : Bool, ∀ b : Nat,
      (runCode (optimizeCode l) ⟨x, b, c⟩).a = (runCode l ⟨x, b, c⟩).a := by
  intro x hx c b
  rw [runCode_no_b _ x b 0 c h3 h4, runCode_no_b _ x b 0 c h1 h2]
  exact hkey x hx c

set_option maxRecDepth 200000 in
/-- C2: for every run accepted by the optimizer's rules -- a
rotate-right-through-carry followed by n = 4..7 logical shifts (Rule A) or
a bare run of n = 3..8 logical shifts (Rule B) -- the rewritten run
computes the identical accumulator result for all 256 accumulator values
and both carry states entering the run (with the B register untouched);
in particular rotate-right-through-carry followed by five shifts becomes
exactly 3 rotate-lefts plus mask 0x07 with identical results on all 256
inputs. -/
theorem amdivgen_C2 :
    (∀ n, 3 ≤ n → n ≤ 8 → ∀ x < 256, ∀ c : Bool, ∀ b : Nat,
      (runCode (optimizeCode (ruleBRun n)) ⟨x, b, c⟩).a
        = (runCode (ruleBRun n) ⟨x, b, c⟩).a) ∧
    (∀ n, 4 ≤ n → n ≤ 7 → ∀ x < 256, ∀ c : Bool, ∀ b : Nat,
      (runCode (optimizeCode (ruleARun n)) ⟨x, b, c⟩).a
        = (runCode (ruleARun n) ⟨x, b, c⟩).a) ∧
    optimizeCode (ruleARun 5) = [AsmLine.rla, .rla, .rla, .and_07] := by
  refine ⟨?_, ?_, by decide⟩
  · intro n h3 h8
    interval_cases n
    · exact optRun_a_eq _ (by decide) (by decide) (by decide) (by decide) (by decide)
    · exact optRun_a_eq _ (by decide) (by decide) (by decide) (by decide) (by decide)
    · exact optRun_a_eq _ (by decide) (by decide) (by decide) (by decide) (by decide)
    · exact optRun_a_eq _ (by decide) (by decide) (by decide) (by decide) (by decide)
    · exact optRun_a_eq _ (by decide) (by decide) (by decide) (by decide) (by decide)
    · exact optRun_a_eq _ (by decide) (by decide) (by decide) (by decide) (by decide)
  · intro n h4 h7
    interval_cases n
    · exact optRun_a_eq _ (by decide) (by decide) (by decide) (by decide) (by decide)
    · exact optRun_a_eq _ (by decide) (by decide) (by decide) (by decide) (by decide)
    · exact optRun_a_eq _ (by decide) (by decide) (by decide) (by decide) (by decide)
    · exact optRun_a_eq _ (by decide) (by decide) (by decide) (by decide) (by decide)

set_option maxRecDepth 200000 in
theorem amdivgen_C2_witness :
    (runCode (optimizeCode (ruleBRun 5)) ⟨37, 9, true⟩).a
      = (runCode (ruleBRun 5) ⟨37, 9, true⟩).a ∧
    (runCode (optimizeCode (ruleARun 5)) ⟨37, 9, true⟩).a
      = (runCode (ruleARun 5) ⟨37, 9, true⟩).a :=
  ⟨amdivgen_C2.1 5 (by decide) (by decide) 37 (by decide) true 9,
    amdivgen_C2.2.1 5 (by decide) (by decide) 37 (by decide) true 9⟩

theorem testOK_iff (d k : Nat) :
    testOK d k = true ↔ ∀ j < 256, j / d = ((2 ^ k / d + 1) * j) / 2 ^ k := by
  simp [testOK, List.all_eq_true, List.mem_range, Nat.beq_eq_true_eq]

/-- The candidate loop is exhausted exactly when every candidate exponent in
its remaining range neither matches the divisor as a power of two nor
validates. -/
theorem findApproxGo_exhausted_iff (d : Nat) :
    ∀ fuel k, (findApproxGo d k fuel = .exhausted ↔
      ∀ k', k ≤ k' → k' < k + fuel → ¬(d = 2 ^ k') ∧ ¬(testOK d k' = true)) := by
  intro fuel
  induction fuel with
  | zero =>
    intro k
    constructor
    · intro _ k' hk1 hk2
      exact absurd hk2 (by omega)
    · intro _
      rfl
  | succ fuel ih =>
    intro k
    simp only [findApproxGo]
    by_cases hd : d = 2 ^ k
    · rw [if_pos hd]
      constructor
      · intro h
        exact SearchOutcome.noConfusion h
      · intro hall
        exact absurd hd (hall k (le_refl k) (by omega)).1
    · rw [if_neg hd]
      by_cases ht : testOK d k = true
      · rw [if_pos ht]
        constructor
        · intro h
          exact SearchOutcome.noConfusion h
        · intro hall
          exact absurd ht (hall k (le_refl k) (by omega)).2
      · rw [if_neg ht]
        rw [ih (k + 1)]
        constructor
        · intro hall k' hk1 hk2
          rcases Nat.eq_or_lt_of_le hk1 with rfl | hlt
          · exact ⟨hd, ht⟩
          · exact hall k' (by omega) (by omega)
        · intro hall k' hk1 hk2
          exact hall k' (by omega) (by omega)

/-- For a divisor that is not a power of two anywhere in range, the
candidate loop returns `approx kk v` exactly when `kk` is the first
validating exponent at or after `k` and `v` the derived multiplier. -/
theorem findApproxGo_approx_iff (d : Nat)
    (hd : ∀ m, m ≤ MAXPOWER2 → d ≠ 2 ^ m) :
    ∀ fuel k kk v, k + fuel = MAXPOWER2 + 1 →
      (findApproxGo d k fuel = .approx kk v ↔
        (k ≤ kk ∧ kk ≤ MAXPOWER2 ∧ v = 2 ^ kk / d + 1 ∧ testOK d kk = true ∧
          ∀ k', k ≤ k' → k' < kk → testOK d k' = false)) := by
  intro fuel
  induction fuel with
  | zero =>
    intro k kk v hkf
    constructor
    · intro h
      exact SearchOutcome.noConfusion h
    · rintro ⟨h1, h2, -, -, -⟩
      exact absurd h2 (by omega)
  | succ fuel ih =>
    intro k kk v hkf
    simp only [findApproxGo]
    rw [if_neg (hd k (by omega))]
    by_cases ht : testOK d k = true
    · rw [if_pos ht]
      constructor
      · intro h
        have hk : k = kk ∧ 2 ^ k / d + 1 = v := by
          cases h
          exact ⟨rfl, rfl⟩
        obtain ⟨rfl, rfl⟩ := hk
        exact ⟨le_refl _, by omega, rfl, ht, fun k' h1 h2 => absurd h2 (by omega)⟩
      · rintro ⟨h1, h2, h3, h4, h5⟩
        have hkk : kk = k := by
          by_contra hne
          have := h5 k (le_refl _) (by omega)
          rw [this] at ht
          exact Bool.noConfusion ht
        subst hkk
        rw [h3]
    · rw [if_neg ht]
      rw [ih (k + 1) kk v (by omega)]
      constructor
      · rintro ⟨h1, h2, h3, h4, h5⟩
        refine ⟨by omega, h2, h3, h4, ?_⟩
        intro k' hk1 hk2
        rcases Nat.eq_or_lt_of_le hk1 with rfl | hlt
        · exact (Bool.not_eq_true _) ▸ ht
        · exact h5 k' (by omega) hk2
      · rintro ⟨h1, h2, h3, h4, h5⟩
        have hkk : k ≠ kk := by
          intro hke
          subst hke
          rw [h4] at ht
          exact ht rfl
        exact ⟨by omega, h2, h3, h4, fun k' hk1 hk2 => h5 k' (by omega) hk2⟩

/-- C3: for a divisor `d ≥ 1` that is not a power of two (anywhere in the
searched range), the approximation search scans candidate exponents in
ascending order and returns `approx kk v` exactly when `kk ≤ MAXPOWER2` is
the first exponent whose candidate `v = floor(2^kk/d) + 1` satisfies
`floor(j/d) = floor(v*j/2^kk)` for every `j` in [0,255] (all smaller
exponents failing the 256-input validation), and generation then uses
that candidate. -/
theorem amdivgen_C3 (d : Nat) (h1 : 1 ≤ d)
    (hd : ∀ m, m ≤ MAXPOWER2 → d ≠ 2 ^ m) :
    ∀ kk v,
      (findApproximation d = .approx kk v ↔
        (kk ≤ MAXPOWER2 ∧ v = 2 ^ kk / d + 1 ∧
          (∀ j < 256, j / d = ((2 ^ kk / d + 1) * j) / 2 ^ kk) ∧
          ∀ k' < kk, ¬ ∀ j < 256, j / d = ((2 ^ k' / d + 1) * j) / 2 ^ k')) ∧
      (findApproximation d = .approx kk v →
        routineFor d = some (optimizeCode (generateLines v kk))) := by
  intro kk v
  constructor
  · rw [show findApproximation d = findApproxGo d 0 (MAXPOWER2 + 1) from rfl]
    rw [findApproxGo_approx_iff d hd (MAXPOWER2 + 1) 0 kk v (by omega)]
    constructor
    · rintro ⟨-, h2, h3, h4, h5⟩
      refine ⟨h2, h3, (testOK_iff d kk).mp h4, ?_⟩
      intro k' hk'
      rw [← testOK_iff]
      have hfalse := h5 k' (by omega) hk'
      simp [hfalse]
    · rintro ⟨h2, h3, h4, h5⟩
      refine ⟨by omega, h2, h3, (testOK_iff d kk).mpr h4, ?_⟩
      intro k' _ hk'
      have hne := h5 k' hk'
      rw [← testOK_iff] at hne
      exact (Bool.not_eq_true _) ▸ hne
  · intro h
    simp [routineFor, generateCode, h]

set_option maxRecDepth 1000000 in
theorem amdivgen_C3_witness :
    (11 ≤ MAXPOWER2 ∧ 205 = 2 ^ 11 / 10 + 1 ∧
      (∀ j < 256, j / 10 = ((2 ^ 11 / 10 + 1) * j) / 2 ^ 11) ∧
      ∀ k' < 11, ¬ ∀ j < 256, j / 10 = ((2 ^ k' / 10 + 1) * j) / 2 ^ k') ∧
    routineFor 10 = some (optimizeCode (generateLines 205 11)) :=
  ⟨((amdivgen_C3 10 (by decide) (by decide) 11 205).1).mp (by decide),
    ((amdivgen_C3 10 (by decide) (by decide) 11 205).2) (by decide)⟩

/-- C6: the search produces the explicit `exhausted` outcome -- and no
routine at all, distinguishable from every generated routine -- exactly
when no candidate exponent up to MAXPOWER2 matches the divisor as a power
of two or passes the 256-input validation; it never reads past the
search bound. -/
theorem amdivgen_C6 (d : Nat) :
    (findApproximation d = .exhausted ↔
      ∀ k ≤ MAXPOWER2, d ≠ 2 ^ k ∧
        ¬ ∀ j < 256, j / d = ((2 ^ k / d + 1) * j) / 2 ^ k) ∧
    (routineFor d = none ↔ findApproximation d = .exhausted) := by
  constructor
  · rw [show findApproximation d = findApproxGo d 0 (MAXPOWER2 + 1) from rfl]
    rw [findApproxGo_exhausted_iff d (MAXPOWER2 + 1) 0]
    constructor
    · intro hall k hk
      obtain ⟨hA, hB⟩ := hall k (by omega) (by omega)
      refine ⟨hA, ?_⟩
      rw [← testOK_iff]
      exact hB
    · intro hall k' _ hk'
      obtain ⟨hA, hB⟩ := hall k' (by omega)
      refine ⟨hA, ?_⟩
      rw [testOK_iff]
      exact hB
  · cases h : findApproximation d <;> simp [routineFor, h]

set_option maxRecDepth 100000 in
/-- C8 counterexample: for divisor 4 (a power of two, k = 2) the search
takes the power-of-two branch and the generated routine is TWO
shift-rights plus the return, measuring 5 bytes / 7 microseconds -- not
the size/time of one shift-right plus one return (3 bytes / 5
microseconds) stated by the claim. -/
theorem amdivgen_C8_cex :
    findApproximation 4 = SearchOutcome.pow2 2 ∧
    routineFor 4 = some [AsmLine.srl_a, .srl_a, .ret] ∧
    measureCode [AsmLine.srl_a, .srl_a, .ret] = (5, 7) ∧
    measureCode [AsmLine.srl_a, .ret] = (3, 5) := by
  refine ⟨by decide, by decide, by decide, by decide⟩

set_option maxRecDepth 100000 in
/-- C8 (amended): for divisor 4 the generator produces the routine of two
shift-right instructions plus the return; its size and time totals (5
bytes, 7 microseconds) equal those of two shift-rights plus one return,
and the simulated result is `floor(j/4)` for every input. -/
theorem amdivgen_C8 :
    routineFor 4 = some (generateCode 1 2) ∧
    generateCode 1 2 = [AsmLine.srl_a, .srl_a, .ret] ∧
    measureCode (generateCode 1 2) = measureCode [AsmLine.srl_a, .srl_a, .ret] ∧
    measureCode (generateCode 1 2) = (5, 7) ∧
    ∀ j b c, (runCode (generateCode 1 2) ⟨j, b, c⟩).a = j / 4 := by
  refine ⟨by decide, by decide, by decide, by decide, ?_⟩
  intro j b c
  have hg : generateCode 1 2 = [AsmLine.srl_a, .srl_a, .ret] := by decide
  rw [hg]
  show j / 2 / 2 = j / 4
  rw [Nat.div_div_eq_div_mul]

theorem take_countSrl : ∀ (l : List AsmLine) (m : Nat), m ≤ countSrl l →
    l.take m = List.replicate m AsmLine.srl_a := by
  intro l
  induction l with
  | nil =>
    intro m hm
    have h0 : countSrl [] = 0 := rfl
    rw [h0] at hm
    have hm0 : m = 0 := by omega
    subst hm0
    rfl
  | cons ins rest ih =>
    intro m hm
    cases m with
    | zero => rfl
    | succ m =>
      by_cases hsrl : ins = AsmLine.srl_a
      · subst hsrl
        have hc : countSrl (AsmLine.srl_a :: rest) = countSrl rest + 1 := rfl
        rw [hc] at hm
        rw [List.take_succ_cons, List.replicate_succ, ih m (by omega)]
      · exfalso
        have h0 : countSrl (ins :: rest) = 0 := by
          cases ins
          case srl_a => exact absurd rfl hsrl
          all_goals rfl
        omega

theorem countSrl_le_length : ∀ l : List AsmLine, countSrl l ≤ l.length := by
  intro l
  induction l with
  | nil => exact le_refl 0
  | cons ins rest ih =>
    cases ins
    case srl_a =>
      have hc : countSrl (AsmLine.srl_a :: rest) = countSrl rest + 1 := rfl
      rw [hc]
      simpa using ih
    all_goals exact Nat.zero_le _

theorem mem_drop_iff_of_countSrl (x : AsmLine) (hx : x ≠ AsmLine.srl_a)
    (rest : List AsmLine) (m : Nat) (hm : m ≤ countSrl rest) :
    x ∈ rest ↔ x ∈ rest.drop m := by
  constructor
  · intro hmem
    have hsplit : rest = List.replicate m AsmLine.srl_a ++ rest.drop m := by
      conv_lhs => rw [← List.take_append_drop m rest]
      rw [take_countSrl rest m hm]
    rw [hsplit] at hmem
    rcases List.mem_append.mp hmem with h | h
    · exact absurd (List.eq_of_mem_replicate h) hx
    · exact h
  · intro hmem
    exact (List.drop_sublist m rest).subset hmem

theorem optimizeGo_cons_other (fuel : Nat) (ins : AsmLine) (rest : List AsmLine)
    (h1 : ins ≠ AsmLine.rra) (h2 : ins ≠ AsmLine.srl_a) :
    optimizeGo (fuel + 1) (ins :: rest) = ins :: optimizeGo fuel rest := by
  cases ins
  case rra => exact absurd rfl h1
  case srl_a => exact absurd rfl h2
  all_goals rfl

/-- The optimizer neither consumes nor produces `ld b,a`, `add b` or
`ret`: membership of those instructions is preserved exactly. -/
theorem mem_optimizeGo (x : AsmLine)
    (hx : x = AsmLine.ld_ba ∨ x = AsmLine.add_b ∨ x = AsmLine.ret) :
    ∀ fuel l, x ∈ optimizeGo fuel l ↔ x ∈ l := by
  obtain ⟨n1, n2, n3, n4, n5, n6, n7, n8, n9, n10, n11, n12, n13, n14, n15⟩ :
      x ≠ AsmLine.srl_a ∧ x ≠ AsmLine.rla ∧ x ≠ AsmLine.rrca ∧ x ≠ AsmLine.rlca ∧
      x ≠ AsmLine.xor_a ∧ x ≠ AsmLine.and_0f ∧ x ≠ AsmLine.and_07 ∧
      x ≠ AsmLine.and_03 ∧ x ≠ AsmLine.and_01 ∧ x ≠ AsmLine.and_f8 ∧
      x ≠ AsmLine.and_f0 ∧ x ≠ AsmLine.and_e0 ∧ x ≠ AsmLine.and_c0 ∧
      x ≠ AsmLine.and_80 ∧ x ≠ AsmLine.rra := by
    rcases hx with rfl | rfl | rfl <;>
      exact ⟨by decide, by decide, by decide, by decide, by decide, by decide, by decide,
        by decide, by decide, by decide, by decide, by decide, by decide, by decide,
        by decide⟩
  intro fuel
  induction fuel with
  | zero =>
    intro l
    cases l <;> simp [optimizeGo]
  | succ fuel ih =>
    intro l
    cases l with
    | nil => simp [optimizeGo]
    | cons ins rest =>
      cases ins
      case rra =>
        rcases hn : countSrl rest with _ | _ | _ | _ | _ | _ | _ | _ | nr <;>
          simp only [optimizeGo, hn, List.cons_append, List.nil_append,
            List.mem_cons, List.mem_append, ih, n1, n2, n3, n4, n5, n6, n7, n8, n9,
            n10, n11, n12, n13, n14, n15, false_or, or_false] <;>
          rw [← mem_drop_iff_of_countSrl x n1 rest _ (by omega)]
      case srl_a =>
        rcases hn : countSrl rest with _ | _ | _ | _ | _ | _ | _ | _ | nr <;>
          simp only [optimizeGo, hn, List.cons_append, List.nil_append,
            List.mem_cons, List.mem_append, ih, n1, n2, n3, n4, n5, n6, n7, n8, n9,
            n10, n11, n12, n13, n14, n15, false_or, or_false] <;>
          rw [← mem_drop_iff_of_countSrl x n1 rest _ (by omega)]
      all_goals
        rw [optimizeGo_cons_other fuel _ rest (by decide) (by decide)]
      all_goals simp [ih]

theorem emitLoop_not_mem (a : List Nat) (np : Nat) (x : AsmLine)
    (hx1 : x ≠ AsmLine.srl_a) (hx2 : x ≠ AsmLine.rra) (hx3 : x ≠ AsmLine.add_b) :
    ∀ j, x ∉ emitLoop a np j := by
  intro j
  induction j with
  | zero => simp [emitLoop]
  | succ j ih =>
    by_cases hc : j + 1 = np - 1 <;>
      simp [emitLoop, hc, List.mem_append, List.mem_replicate, hx1, hx2, hx3, ih]

theorem add_b_mem_emitLoop (a : List Nat) (np : Nat) :
    ∀ j, AsmLine.add_b ∈ emitLoop a np j ↔ 1 ≤ j := by
  intro j
  cases j with
  | zero => simp [emitLoop]
  | succ j =>
    simp [emitLoop, List.mem_append]

/-- Membership of `ld b,a` and `add b` in the built (pre-optimization)
sequence is exactly "more than one retained decomposition term". -/
theorem generateLines_mem (i divpow : Nat) :
    (AsmLine.ld_ba ∈ generateLines i divpow ↔ 1 < finalNumpowers i divpow) ∧
    (AsmLine.add_b ∈ generateLines i divpow ↔ 1 < finalNumpowers i divpow) := by
  by_cases hbig : 8 < (divpow : Int) - ((arrrayPowersOf2 i).getD 0 0 : Int)
  · have hg : generateLines i divpow = [AsmLine.xor_a, AsmLine.ret] := by
      simp only [generateLines]
      rw [if_pos hbig]
    have hf : finalNumpowers i divpow = 1 := by
      simp only [finalNumpowers]
      rw [if_pos hbig]
    rw [hg, hf]
    simp
  · have hf : finalNumpowers i divpow = pruneNumpowers (arrrayPowersOf2 i) := by
      simp only [finalNumpowers]
      rw [if_neg hbig]
    rw [hf]
    have hg : generateLines i divpow
        = (if 1 < pruneNumpowers (arrrayPowersOf2 i) then [AsmLine.ld_ba] else [])
          ++ emitLoop (arrrayPowersOf2 i) (pruneNumpowers (arrrayPowersOf2 i))
              (pruneNumpowers (arrrayPowersOf2 i) - 1)
          ++ (if pruneNumpowers (arrrayPowersOf2 i) ≠ 1 then [AsmLine.rra]
              else if divpow = (arrrayPowersOf2 i).getD 0 0 then [] else [AsmLine.srl_a])
          ++ List.replicate
              ((divpow : Int) - ((arrrayPowersOf2 i).getD 0 0 : Int) - 1).toNat
              AsmLine.srl_a
          ++ [AsmLine.ret] := by
    -- the non-degenerate branch of `generateLines`
      simp only [generateLines]
      rw [if_neg hbig]
    rw [hg]
    set np := pruneNumpowers (arrrayPowersOf2 i) with hnp
    constructor
    · simp only [List.mem_append]
      constructor
      · rintro ((((h | h) | h) | h) | h)
        · by_cases h1 : 1 < np
          · exact h1
          · rw [if_neg h1] at h
            simp at h
        · exact absurd h (emitLoop_not_mem _ _ _ (by decide) (by decide) (by decide) _)
        · by_cases h1 : np ≠ 1
          · rw [if_pos h1] at h
            simp at h
          · rw [if_neg h1] at h
            split at h <;> simp at h
        · exact absurd (List.eq_of_mem_replicate h) (by decide)
        · simp at h
      · intro h1
        refine Or.inl (Or.inl (Or.inl (Or.inl ?_)))
        rw [if_pos h1]
        simp
    · simp only [List.mem_append]
      constructor
      · rintro ((((h | h) | h) | h) | h)
        · split at h <;> simp at h
        · have := (add_b_mem_emitLoop _ _ _).mp h
          omega
        · by_cases h1 : np ≠ 1
          · rw [if_pos h1] at h
            simp at h
          · rw [if_neg h1] at h
            split at h <;> simp at h
        · exact absurd (List.eq_of_mem_replicate h) (by decide)
        · simp at h
      · intro h1
        refine Or.inl (Or.inl (Or.inl (Or.inr ?_)))
        rw [add_b_mem_emitLoop]
        omega

theorem optimizeCode_cons_head (ins : AsmLine) (L : List AsmLine)
    (h1 : ins ≠ AsmLine.rra) (h2 : ins ≠ AsmLine.srl_a) :
    (optimizeCode (ins :: L)).head? = some ins := by
  show (optimizeGo (L.length + 1) (ins :: L)).head? = _
  rw [optimizeGo_cons_other L.length ins L h1 h2]
  rfl

/-- C9: in every generated routine the auxiliary B register is used -- the
input is saved into it first by `ld b,a`, it is consumed by `add b`, and
the routine is flagged as destroying B -- if and only if more than one
decomposition term is retained (`numpowers > 1` after pruning and
discard). -/
theorem amdivgen_C9 (i divpow : Nat) :
    (AsmLine.ld_ba ∈ generateCode i divpow ↔ 1 < finalNumpowers i divpow) ∧
    (AsmLine.add_b ∈ generateCode i divpow ↔ 1 < finalNumpowers i divpow) ∧
    (1 < finalNumpowers i divpow →
      (generateCode i divpow).head? = some AsmLine.ld_ba) ∧
    (registersUsed i divpow = ParamRegistersUsed.destroys_b ↔
      1 < finalNumpowers i divpow) := by
  obtain ⟨hld, hadd⟩ := generateLines_mem i divpow
  refine ⟨?_, ?_, ?_, ?_⟩
  · rw [show generateCode i divpow
      = optimizeGo (generateLines i divpow).length (generateLines i divpow) from rfl]
    rw [mem_optimizeGo _ (Or.inl rfl)]
    exact hld
  · rw [show generateCode i divpow
      = optimizeGo (generateLines i divpow).length (generateLines i divpow) from rfl]
    rw [mem_optimizeGo _ (Or.inr (Or.inl rfl))]
    exact hadd
  · intro h1
    by_cases hbig : 8 < (divpow : Int) - ((arrrayPowersOf2 i).getD 0 0 : Int)
    · exfalso
      have hf : finalNumpowers i divpow = 1 := by
        simp only [finalNumpowers]
        rw [if_pos hbig]
      omega
    · have hf : finalNumpowers i divpow = pruneNumpowers (arrrayPowersOf2 i) := by
        simp only [finalNumpowers]
        rw [if_neg hbig]
      have hnp : 1 < pruneNumpowers (arrrayPowersOf2 i) := by omega
      have hg : generateLines i divpow
          = AsmLine.ld_ba ::
            (emitLoop (arrrayPowersOf2 i) (pruneNumpowers (arrrayPowersOf2 i))
                (pruneNumpowers (arrrayPowersOf2 i) - 1)
              ++ ((if pruneNumpowers (arrrayPowersOf2 i) ≠ 1 then [AsmLine.rra]
                  else if divpow = (arrrayPowersOf2 i).getD 0 0 then []
                  else [AsmLine.srl_a])
              ++ (List.replicate
                  ((divpow : Int) - ((arrrayPowersOf2 i).getD 0 0 : Int) - 1).toNat
                  AsmLine.srl_a
              ++ [AsmLine.ret]))) := by
        simp only [generateLines]
        rw [if_neg hbig, if_pos hnp]
        simp [List.append_assoc]
      show (optimizeCode (generateLines i divpow)).head? = _
      rw [hg]
      exact optimizeCode_cons_head _ _ (by decide) (by decide)
  · by_cases h : 1 < finalNumpowers i divpow <;> simp [registersUsed, h]

theorem amdivgen_C9_witness :
    (AsmLine.ld_ba ∈ generateCode 9 4 ↔ 1 < finalNumpowers 9 4) ∧
    (generateCode 9 4).head? = some AsmLine.ld_ba :=
  ⟨(amdivgen_C9 9 4).1, (amdivgen_C9 9 4).2.2.1 (by decide)⟩

theorem count_drop_of_countSrl (l : List AsmLine) (m : Nat) (hm : m ≤ countSrl l) :
    l.count AsmLine.srl_a = m + (l.drop m).count AsmLine.srl_a := by
  conv_lhs => rw [← List.take_append_drop m l]
  rw [List.count_append, take_countSrl l m hm]
  simp [List.count_replicate_self]

/-- Weighted length bound for the optimizer: each scan step emits at most
one instruction more than it consumes, and only when it consumes at least
three `srl a`. -/
theorem optimizeGo_length_bound :
    ∀ fuel l, 3 * (optimizeGo fuel l).length
      ≤ 3 * l.length + l.count AsmLine.srl_a := by
  intro fuel
  induction fuel with
  | zero =>
    intro l
    cases l <;> simp [optimizeGo]
  | succ fuel ih =>
    intro l
    cases l with
    | nil => simp [optimizeGo]
    | cons ins rest =>
      have hcle : countSrl rest ≤ rest.length := countSrl_le_length rest
      cases ins
      case rra =>
        have hcnt : (AsmLine.rra :: rest).count AsmLine.srl_a
            = rest.count AsmLine.srl_a := by
          rw [List.count_cons_of_ne (by decide)]
        rcases hn : countSrl rest with _ | _ | _ | _ | _ | _ | _ | _ | nr
        · simp only [optimizeGo, hn, List.length_cons, hcnt]
          have := ih rest
          omega
        · simp only [optimizeGo, hn, List.length_cons, hcnt]
          have := ih rest
          omega
        · simp only [optimizeGo, hn, List.length_cons, hcnt]
          have := ih rest
          omega
        · simp only [optimizeGo, hn, List.length_cons, hcnt]
          have := ih rest
          omega
        · simp only [optimizeGo, hn, List.length_append, List.length_cons,
            List.length_nil, List.length_drop, hcnt]
          have hdc := count_drop_of_countSrl rest 4 (by omega)
          have := ih (rest.drop 4)
          simp only [List.length_drop] at this
          omega
        · simp only [optimizeGo, hn, List.length_append, List.length_cons,
            List.length_nil, List.length_drop, hcnt]
          have hdc := count_drop_of_countSrl rest 5 (by omega)
          have := ih (rest.drop 5)
          simp only [List.length_drop] at this
          omega
        · simp only [optimizeGo, hn, List.length_append, List.length_cons,
            List.length_nil, List.length_drop, hcnt]
          have hdc := count_drop_of_countSrl rest 6 (by omega)
          have := ih (rest.drop 6)
          simp only [List.length_drop] at this
          omega
        · simp only [optimizeGo, hn, List.length_append, List.length_cons,
            List.length_nil, List.length_drop, hcnt]
          have hdc := count_drop_of_countSrl rest 7 (by omega)
          have := ih (rest.drop 7)
          simp only [List.length_drop] at this
          omega
        · simp only [optimizeGo, hn, List.length_cons, hcnt]
          have := ih rest
          omega
      case srl_a =>
        have hcnt : (AsmLine.srl_a :: rest).count AsmLine.srl_a
            = rest.count AsmLine.srl_a + 1 := by
          rw [List.count_cons_self]
        rcases hn : countSrl rest with _ | _ | _ | _ | _ | _ | _ | _ | nr
        · simp only [optimizeGo, hn, List.length_cons, hcnt]
          have := ih rest
          omega
        · simp only [optimizeGo, hn, List.length_cons, hcnt]
          have := ih rest
          omega
        · simp only [optimizeGo, hn, List.length_append, List.length_cons,
            List.length_nil, List.length_drop, hcnt]
          have hdc := count_drop_of_countSrl rest 2 (by omega)
          have := ih (rest.drop 2)
          simp only [List.length_drop] at this
          omega
        · simp only [optimizeGo, hn, List.length_append, List.length_cons,
            List.length_nil, List.length_drop, hcnt]
          have hdc := count_drop_of_countSrl rest 3 (by omega)
          have := ih (rest.drop 3)
          simp only [List.length_drop] at this
          omega
        · simp only [optimizeGo, hn, List.length_append, List.length_cons,
            List.length_nil, List.length_drop, hcnt]
          have hdc := count_drop_of_countSrl rest 4 (by omega)
          have := ih (rest.drop 4)
          simp only [List.length_drop] at this
          omega
        · simp only [optimizeGo, hn, List.length_append, List.length_cons,
            List.length_nil, List.length_drop, hcnt]
          have hdc := count_drop_of_countSrl rest 5 (by omega)
          have := ih (rest.drop 5)
          simp only [List.length_drop] at this
          omega
        · simp only [optimizeGo, hn, List.length_append, List.length_cons,
            List.length_nil, List.length_drop, hcnt]
          have hdc := count_drop_of_countSrl rest 6 (by omega)
          have := ih (rest.drop 6)
          simp only [List.length_drop] at this
          omega
        · simp only [optimizeGo, hn, List.length_append, List.length_cons,
            List.length_nil, List.length_drop, hcnt]
          have hdc := count_drop_of_countSrl rest 7 (by omega)
          have := ih (rest.drop 7)
          simp only [List.length_drop] at this
          omega
        · simp only [optimizeGo, hn, List.length_cons, hcnt]
          have := ih rest
          omega
      all_goals
        (rw [optimizeGo_cons_other fuel _ rest (by decide) (by decide),
           List.count_cons_of_ne (by decide)]
         simp only [List.length_cons]
         have := ih rest
         omega)

theorem emitLoop_length (a : List Nat) (ha : a.Pairwise (· > ·)) (np : Nat) :
    ∀ j, j < a.length →
      (emitLoop a np j).length = (a.getD 0 0 - a.getD j 0) + j := by
  intro j
  induction j with
  | zero =>
    intro _
    simp [emitLoop]
  | succ j ih =>
    intro hj
    have hgt : a.getD (j + 1) 0 < a.getD j 0 := getD_lt_getD ha (by omega) hj
    have h0j : a.getD j 0 ≤ a.getD 0 0 := by
      rcases Nat.eq_zero_or_pos j with rfl | hpos
      · exact le_refl _
      · exact le_of_lt (getD_lt_getD ha (by omega) (by omega))
    have htoNat : ((a.getD j 0 : Int) - (a.getD (j + 1) 0 : Int) - 1).toNat
        = a.getD j 0 - a.getD (j + 1) 0 - 1 := by omega
    have hrec := ih (by omega)
    by_cases hc : j + 1 = np - 1
    · simp only [emitLoop, htoNat]
      rw [if_pos hc]
      simp only [List.length_append, List.length_cons, List.length_replicate,
        List.length_nil, hrec]
      omega
    · simp only [emitLoop, htoNat]
      rw [if_neg hc]
      simp only [List.length_append, List.length_cons, List.length_replicate,
        List.length_nil, hrec]
      omega

theorem emitLoop_srl_count (a : List Nat) (ha : a.Pairwise (· > ·)) (np : Nat) :
    ∀ j, j < a.length → j ≤ np - 1 →
      (emitLoop a np j).count AsmLine.srl_a + j
        = (a.getD 0 0 - a.getD j 0)
          + (if j = np - 1 ∧ 1 ≤ j then 1 else 0) := by
  intro j
  induction j with
  | zero =>
    intro _ _
    simp [emitLoop]
  | succ j ih =>
    intro hj hj2
    have hgt : a.getD (j + 1) 0 < a.getD j 0 := getD_lt_getD ha (by omega) hj
    have h0j : a.getD j 0 ≤ a.getD 0 0 := by
      rcases Nat.eq_zero_or_pos j with rfl | hpos
      · exact le_refl _
      · exact le_of_lt (getD_lt_getD ha (by omega) (by omega))
    have htoNat : ((a.getD j 0 : Int) - (a.getD (j + 1) 0 : Int) - 1).toNat
        = a.getD j 0 - a.getD (j + 1) 0 - 1 := by omega
    have hrec := ih (by omega) (by omega)
    rw [if_neg (by omega : ¬(j = np - 1 ∧ 1 ≤ j))] at hrec
    by_cases hc : j + 1 = np - 1
    · simp only [emitLoop, htoNat]
      rw [if_pos hc, if_pos (by omega : j + 1 = np - 1 ∧ 1 ≤ j + 1)]
      simp only [List.cons_append, List.nil_append, List.count_append,
        List.count_cons_self, List.count_replicate_self,
        List.count_cons_of_ne (show AsmLine.srl_a ≠ AsmLine.add_b from by decide),
        List.count_nil]
      omega
    · simp only [emitLoop, htoNat]
      rw [if_neg hc, if_neg (by omega : ¬(j + 1 = np - 1 ∧ 1 ≤ j + 1))]
      simp only [List.cons_append, List.nil_append, List.count_append,
        List.count_replicate_self,
        List.count_cons_of_ne (show AsmLine.srl_a ≠ AsmLine.rra from by decide),
        List.count_cons_of_ne (show AsmLine.srl_a ≠ AsmLine.add_b from by decide),
        List.count_nil]
      omega

/-- A list of strictly decreasing exponents cannot be longer than the
magnitude of its power sum allows. -/
theorem two_pow_length_le (l : List Nat) (hp : l.Pairwise (· > ·)) :
    2 ^ l.length ≤ sumPow l + 1 := by
  induction l with
  | nil => simp [sumPow]
  | cons e t ih =>
    have hlt : sumPow t < 2 ^ e :=
      sumPow_lt_of_forall_lt t e (fun x hx => List.rel_of_pairwise_cons hp hx)
        (List.Pairwise.of_cons hp)
    have ht := ih (List.Pairwise.of_cons hp)
    simp only [List.length_cons, sumPow, List.map_cons, List.sum_cons] at *
    have := pow_succ 2 t.length
    omega

theorem pruneLoop_le (a : List Nat) :
    ∀ j np, j ≤ np → pruneLoop a np j ≤ np := by
  intro j
  induction j with
  | zero =>
    intro np _
    exact le_refl np
  | succ j ih =>
    intro np hj
    simp only [pruneLoop]
    split
    · exact le_trans (ih (j + 1) (by omega)) (by omega)
    · exact ih np (by omega)

theorem pruneLoop_pos (a : List Nat) :
    ∀ j np, 1 ≤ np → 1 ≤ pruneLoop a np j := by
  intro j
  induction j with
  | zero =>
    intro np h
    exact h
  | succ j ih =>
    intro np hnp
    simp only [pruneLoop]
    split
    · exact ih (j + 1) (by omega)
    · exact ih np hnp

/-- C10: for every accepted input (multiplier between 1 and the
denominator, exponent at most MAXPOWER2), the built instruction sequence
and its optimized form each hold at most 50 instructions, so the
fixed-size 50-entry buffers written by `addLine` and `addLineTemp` are
never overrun. -/
theorem amdivgen_C10 (i divpow : Nat) (h1 : 1 ≤ i) (h2 : i ≤ 2 ^ divpow)
    (hmax : divpow ≤ MAXPOWER2) :
    (generateLines i divpow).length ≤ 50 ∧ (generateCode i divpow).length ≤ 50 := by
  have hM : MAXPOWER2 = 24 := rfl
  set a := arrrayPowersOf2 i with ha
  have hi25 : i < 2 ^ (MAXPOWER2 + 1) := by
    have hA : (2 : Nat) ^ divpow ≤ 2 ^ MAXPOWER2 := Nat.pow_le_pow_right (by omega) hmax
    have hB : (2 : Nat) ^ MAXPOWER2 < 2 ^ (MAXPOWER2 + 1) :=
      Nat.pow_lt_pow_right (by omega) (by omega)
    omega
  have hpw : a.Pairwise (· > ·) := decompFrom_pairwise _ _
  have hsum : sumPow a = i := decompFrom_sum _ _ hi25
  have hnil : a ≠ [] := decompFrom_ne_nil _ _ h1 hi25
  have hlpos : 1 ≤ a.length := List.length_pos.mpr hnil
  have hlen24 : a.length ≤ 24 := by
    by_contra hcon
    have h25 : 25 ≤ a.length := by omega
    have hle := two_pow_length_le a hpw
    have hpow : (2 : Nat) ^ 25 ≤ 2 ^ a.length := Nat.pow_le_pow_right (by omega) h25
    have hdiv : (2 : Nat) ^ divpow ≤ 2 ^ 24 :=
      Nat.pow_le_pow_right (by omega) (by omega)
    have h2425 : (2 : Nat) ^ 24 < 2 ^ 25 := Nat.pow_lt_pow_right (by omega) (by omega)
    rw [hsum] at hle
    omega
  have h2e0 : 2 ^ a.getD 0 0 ≤ i := by
    obtain ⟨e0, t, heq⟩ := List.exists_cons_of_ne_nil hnil
    have := sumPow_head_le e0 t
    rw [← heq, hsum] at this
    rw [heq]
    exact this
  have he0divpow : a.getD 0 0 ≤ divpow := by
    by_contra hcon
    have : (2 : Nat) ^ divpow < 2 ^ a.getD 0 0 :=
      Nat.pow_lt_pow_right (by omega) (by omega)
    omega
  have he024 : a.getD 0 0 ≤ 24 := by omega
  by_cases hbig : 8 < (divpow : Int) - (a.getD 0 0 : Int)
  · have hgen : generateLines i divpow = [AsmLine.xor_a, AsmLine.ret] := by
      simp only [generateLines]
      rw [← ha, if_pos hbig]
    constructor
    · rw [hgen]
      decide
    · show (optimizeCode (generateLines i divpow)).length ≤ 50
      rw [hgen]
      decide
  · set np := pruneNumpowers a with hnp
    have hnple : np ≤ a.length := pruneLoop_le a (a.length - 1) a.length (by omega)
    have hnppos : 1 ≤ np := pruneLoop_pos a (a.length - 1) a.length hlpos
    set t0 : Nat := ((divpow : Int) - (a.getD 0 0 : Int) - 1).toNat with ht0
    have ht : t0 ≤ divpow - a.getD 0 0 := by omega
    rcases Nat.eq_or_lt_of_le hnppos with hnp1 | hnp2
    · -- a single retained term: only shifts are emitted
      have hgen : generateLines i divpow
          = (if divpow = a.getD 0 0 then ([] : List AsmLine) else [AsmLine.srl_a])
            ++ (List.replicate t0 AsmLine.srl_a ++ [AsmLine.ret]) := by
        simp only [generateLines]
        rw [← ha, ← hnp, ← hnp1]
        rw [if_neg hbig]
        simp [emitLoop, ht0]
      have hL : (generateLines i divpow).length ≤ 26 := by
        rw [hgen]
        simp only [List.length_append, List.length_replicate, List.length_cons,
          List.length_nil]
        split <;> simp <;> omega
      constructor
      · omega
      · show (optimizeCode (generateLines i divpow)).length ≤ 50
        have hb := optimizeGo_length_bound (generateLines i divpow).length
          (generateLines i divpow)
        have hc := List.count_le_length AsmLine.srl_a (generateLines i divpow)
        show (optimizeGo (generateLines i divpow).length (generateLines i divpow)).length ≤ 50
        omega
    · -- at least two retained terms
      have hgen : generateLines i divpow
          = [AsmLine.ld_ba]
            ++ (emitLoop a np (np - 1)
            ++ ([AsmLine.rra]
            ++ (List.replicate t0 AsmLine.srl_a ++ [AsmLine.ret]))) := by
        simp only [generateLines]
        rw [← ha, ← hnp, if_neg hbig]
        rw [if_pos (by omega : 1 < np), if_pos (by omega : np ≠ 1), ← ht0]
        simp [List.append_assoc]
      have hjlt : np - 1 < a.length := by omega
      have hEL := emitLoop_length a hpw np (np - 1) hjlt
      have hEC := emitLoop_srl_count a hpw np (np - 1) hjlt (le_refl _)
      rw [if_pos ⟨rfl, by omega⟩] at hEC
      have hlast : a.getD (np - 1) 0 < a.getD 0 0 :=
        getD_lt_getD hpw (by omega) hjlt
      have hL : (generateLines i divpow).length
          = 3 + ((a.getD 0 0 - a.getD (np - 1) 0) + (np - 1)) + t0 := by
        rw [hgen]
        simp only [List.length_append, List.length_cons, List.length_replicate,
          List.length_nil, hEL]
        omega
      have hS : (generateLines i divpow).count AsmLine.srl_a
          = (emitLoop a np (np - 1)).count AsmLine.srl_a + t0 := by
        rw [hgen]
        simp only [List.count_append, List.count_replicate_self, List.count_nil,
          List.count_cons_of_ne (show AsmLine.srl_a ≠ AsmLine.ld_ba from by decide),
          List.count_cons_of_ne (show AsmLine.srl_a ≠ AsmLine.rra from by decide),
          List.count_cons_of_ne (show AsmLine.srl_a ≠ AsmLine.ret from by decide)]
        omega
      constructor
      · omega
      · show (optimizeGo (generateLines i divpow).length (generateLines i divpow)).length
          ≤ 50
        have hb := optimizeGo_length_bound (generateLines i divpow).length
          (generateLines i divpow)
        omega

theorem amdivgen_C10_witness :
    (1 ≤ 205 ∧ 205 ≤ 2 ^ 11 ∧ 11 ≤ MAXPOWER2) ∧
    (generateLines 205 11).length ≤ 50 ∧ (generateCode 205 11).length ≤ 50 :=
  ⟨⟨by decide, by decide, by decide⟩,
    amdivgen_C10 205 11 (by decide) (by decide) (by decide)⟩
